import Mathlib

/-!
# Verification of the GenAlgo TSP genetic-algorithm implementation

Shallow embedding of `src/GenAlgo/main.go` (package `main`): the tour data
model, the canonical-key function, the LRU fitness cache, the distance
computation, the genetic operators and the duplicate-avoiding mutation
wrapper, together with proofs and refutations of the specification claims.

Modelling conventions:
* Go `[]int` tour paths become `List Nat` (city indices are non-negative).
* Go `float64` lengths, distances and mutation rates become `ℚ`; the claims
  under scrutiny concern control flow and exact value propagation, not
  floating-point rounding.
* Go's `math/rand` draws are passed in explicitly (cut points, swap
  positions, the `rand.Float64()` sample), so every function is a total,
  deterministic Lean function of its inputs.
* In-place slice updates are modelled with explicit state passing; where a
  claim is about aliasing (`mutate` writes through the caller's slice), the
  model returns both the caller's backing array after the call and the
  returned path.
-/

namespace GenAlgo

/-- Go `type Route struct { path []int; distance float64 }` (main.go:23-26). -/
structure Route where
  path : List Nat
  distance : ℚ
deriving DecidableEq, Repr

/-- Go `type DistanceMatrix [][]float64` (main.go:28). -/
def DistanceMatrix : Type := List (List ℚ)

/-- Go `func (dm DistanceMatrix) Distance(i, j int) float64 { return dm[i][j] }`
(main.go:30-32).  Out-of-range indices default to `0`; every use in the
claims is in range. -/
def DistanceMatrix.Distance (dm : DistanceMatrix) (i j : Nat) : ℚ :=
  (dm.getD i []).getD j 0

/-- The scan inside Go `normalizePath` (main.go:101-108): walk the path
keeping the index of the smallest value seen so far (strict `<`, so the
first occurrence of the minimum wins).  Arguments: remaining path, index of
the next element, best index so far, best value so far. -/
def scanMinIdx : List Nat → Nat → Nat → Nat → Nat
  | [], _, bestIdx, _ => bestIdx
  | v :: rest, i, bestIdx, bestVal =>
    if v < bestVal then scanMinIdx rest (i + 1) i v
    else scanMinIdx rest (i + 1) bestIdx bestVal

/-- Index of the first minimum of a path; Go initialises `minIdx = 0`,
`minVal = path[0]` and scans (main.go:101-108).  `0` for the empty path,
which Go returns early (main.go:98-100). -/
def minIndex : List Nat → Nat
  | [] => 0
  | v :: rest => scanMinIdx rest 1 0 v

/-- Go `func normalizePath(path []int) []int` (main.go:97-110): rotate the
path so that its minimum element comes first,
`append(path[minIdx:], path[:minIdx]...)`. -/
def normalizePath (path : List Nat) : List Nat :=
  match path with
  | [] => []
  | _ :: _ => path.drop (minIndex path) ++ path.take (minIndex path)

/-- Go `func getKey(path []int) string` (main.go:112-122): the normalized
path joined with `,` separators. -/
def getKey (path : List Nat) : String :=
  String.intercalate "," ((normalizePath path).map Nat.repr)

/-- Go `func calculateDistance(route Route, dm DistanceMatrix) float64`
(main.go:181-189): sum of distances along the closed cycle
`0 → path[0] → ... → path[last] → 0`. -/
def calculateDistance (path : List Nat) (dm : DistanceMatrix) : ℚ :=
  let r := path.foldl (fun (acc : ℚ × Nat) city => (acc.1 + dm.Distance acc.2 city, city)) (0, 0)
  r.1 + dm.Distance r.2 0

/-- Go `type cacheEntry struct { key string; value float64 }` together with
the combined `map[string]*list.Element` plus `container/list` recency list
of `LRUCache` (main.go:34-44), modelled as a single association list in
recency order (head = most recently used).  The capacity is kept as `ℤ`
because Go's `int` capacity may be non-positive, which matters for the
safety claim about `Put`. -/
structure LRUCache where
  capacity : ℤ
  entries : List (String × ℚ)
deriving DecidableEq, Repr

/-- Go `func NewLRUCache(capacity int) *LRUCache` (main.go:46-52). -/
def NewLRUCache (capacity : ℤ) : LRUCache :=
  { capacity := capacity, entries := [] }

/-- Go `func (lc *LRUCache) Get(key string) (float64, bool)` (main.go:54-63):
on a hit the entry is moved to the front of the recency list and its value
returned; on a miss `(0, false)` is returned and the cache is unchanged.
The result pairs the Go return value with the cache state after the call. -/
def LRUCache.get (c : LRUCache) (key : String) : (ℚ × Bool) × LRUCache :=
  match c.entries.find? (fun e => e.1 == key) with
  | some e => ((e.2, true), { c with entries := e :: c.entries.eraseP (fun e => e.1 == key) })
  | none => ((0, false), c)

/-- Go `func (lc *LRUCache) Put(key string, value float64)` (main.go:65-83):
an existing key is overwritten and moved to the front; otherwise, if the
recency list is at least as long as the capacity, the back element is
evicted first, and the new entry is pushed to the front.  When the eviction
branch runs on an empty recency list Go dereferences the `nil` result of
`lc.list.Back()` and panics; the model returns `none` there. -/
def LRUCache.put (c : LRUCache) (key : String) (value : ℚ) : Option LRUCache :=
  match c.entries.find? (fun e => e.1 == key) with
  | some _ => some { c with entries := (key, value) :: c.entries.eraseP (fun e => e.1 == key) }
  | none =>
    if c.capacity ≤ (c.entries.length : ℤ) then
      match c.entries.getLast? with
      | none => none
      | some _ =>
        some { c with entries := (key, value) :: c.entries.dropLast }
    else
      some { c with entries := (key, value) :: c.entries }

/-- The copy loop of Go `crossover` (main.go:232-237):
`for i := a; i <= b; i++ { child[i] = parent[i] }`, written as a fold of
in-place `set` updates over the index range `[a, b]`. -/
def copySeg (parent : List Nat) (a b : Nat) (child : List Nat) : List Nat :=
  (List.range' a (b + 1 - a)).foldl (fun c i => c.set i (parent.getD i 0)) child

/-- The `fillChild` closure of Go `crossover` (main.go:239-247): walk the
other parent, writing each city that is not in `used` at the current write
position, which starts at `(b+1) % size` and advances mod `size`.  The Go
`used` map holds exactly the cities of the copied segment, so membership in
that segment models the map lookup. -/
def fillChild (size : Nat) (child parent used : List Nat) (b : Nat) : List Nat :=
  (parent.foldl
    (fun (acc : List Nat × Nat) city =>
      if city ∈ used then acc
      else (acc.1.set acc.2 city, (acc.2 + 1) % size))
    (child, (b + 1) % size)).1

/-- One child of Go `crossover` (main.go:221-253): `pSeg` contributes the
verbatim segment `pSeg[a..b]`, `pFill` fills the remaining positions in its
own order.  `size` is `len(parent1.path)` in Go; both children use it. -/
def crossoverChild (size : Nat) (pSeg pFill : List Nat) (a b : Nat) : List Nat :=
  fillChild size (copySeg pSeg a b (List.replicate size 0)) pFill
    ((pSeg.drop a).take (b + 1 - a)) b

/-- Go `func crossover(parent1, parent2 Route) (Route, Route)`
(main.go:221-253) on paths, with the two random cut points `a ≤ b` passed
in explicitly (Go draws them via `rand.Intn(size)` and sorts them). -/
def crossover (p1 p2 : List Nat) (a b : Nat) : List Nat × List Nat :=
  let size := p1.length
  (crossoverChild size p1 p2 a b, crossoverChild size p2 p1 a b)

/-- One pairwise swap of Go `mutate` (main.go:262-263):
`route.path[a], route.path[b] = route.path[b], route.path[a]`. -/
def swapPositions (l : List Nat) (a b : Nat) : List Nat :=
  (l.set a (l.getD b 0)).set b (l.getD a 0)

/-- Go `func mutate(route Route, mutationRate float64) Route`
(main.go:255-266) on paths: if the random draw is `≥ rate` the path is
returned unchanged, otherwise the listed pairwise swaps (Go draws
`rand.Intn(3)+1` of them, each with two positions from `rand.Intn(size)`)
are applied left to right. -/
def mutate (path : List Nat) (randFloat rate : ℚ) (swaps : List (Nat × Nat)) : List Nat :=
  if randFloat ≥ rate then path
  else swaps.foldl (fun p ab => swapPositions p ab.1 ab.2) path

/-- Go `mutate` with its in-place effect made explicit (main.go:255-266):
the swaps write through `route.path`, the caller's backing array, and the
returned `Route` carries that same slice.  The first component is the
caller's array after the call, the second the returned path; translated
from the source they are the same list. -/
def mutateGo (path : List Nat) (randFloat rate : ℚ) (swaps : List (Nat × Nat)) :
    List Nat × List Nat :=
  let p := mutate path randFloat rate swaps
  (p, p)

/-- The retry loop of Go `cachedMutate` (main.go:140-151), with the number
of remaining attempts as the recursion fuel.  `mutateO path rate i` stands
for `mutate(route, rate)` at attempt `i` together with that call's random
draws; the current path is threaded through because Go's `mutate` scrambles
`route.path` in place, so every attempt (and the final fallback) starts
from the previous attempt's array.  `inCache` models `cache.Get` used as a
membership probe (`Get` only reorders recency, so membership is stable
across the loop). -/
def cachedMutateAux (mutateO : List Nat → ℚ → Nat → List Nat) (inCache : String → Bool)
    (origRate : ℚ) : Nat → List Nat → ℚ → Nat → List Nat
  | 0, path, _, _ => mutateO path origRate 8
  | fuel + 1, path, rate, attempt =>
    let mutated := mutateO path rate attempt
    if inCache (getKey mutated) then
      cachedMutateAux mutateO inCache origRate fuel mutated (rate * (3 / 2)) (attempt + 1)
    else mutated

/-- Go `func cachedMutate(route Route, mutationRate float64, cache *LRUCache) Route`
(main.go:140-151): up to `maxAttempts = 8` tries, multiplying the rate by
`1.5` after each colliding attempt, with a final fallback `mutate` call at
the original rate. -/
def cachedMutate (mutateO : List Nat → ℚ → Nat → List Nat) (inCache : String → Bool)
    (path : List Nat) (rate : ℚ) : List Nat :=
  cachedMutateAux mutateO inCache rate 8 path rate 0

/-- The sequence of tours produced by the successive `mutate` calls inside
`cachedMutate`: attempt `i` runs at rate `rate * (3/2)^i` on the previous
attempt's array (the in-place threading described at `cachedMutateAux`).
Used to state the characterization of `cachedMutate`. -/
def attemptResult (mutateO : List Nat → ℚ → Nat → List Nat) (path : List Nat) (rate : ℚ) :
    Nat → List Nat
  | 0 => mutateO path rate 0
  | i + 1 => mutateO (attemptResult mutateO path rate i) (rate * (3 / 2) ^ (i + 1)) (i + 1)

/-- One iteration of the worker body of Go `evaluatePopulation`
(main.go:162-170): look the tour up by key; on a hit store the cached
value as the tour's distance, on a miss compute `calculateDistance` and
`Put` it.  `none` models the `Put` panic on a non-positive capacity. -/
def evalStep (dm : DistanceMatrix) (acc : List ℚ × LRUCache) (path : List Nat) :
    Option (List ℚ × LRUCache) :=
  let key := getKey path
  let r := acc.2.get key
  if r.1.2 then
    some (acc.1 ++ [r.1.1], r.2)
  else
    let d := calculateDistance path dm
    match r.2.put key d with
    | some c => some (acc.1 ++ [d], c)
    | none => none

/-- Go `func evaluatePopulation(population []Route, dm DistanceMatrix, cache *LRUCache)`
(main.go:153-179) under the worker schedule that processes the indices in
increasing order (the workers pull indices `0, 1, ...` from the jobs
channel; this is one admissible interleaving).  Returns the distances
written into the population slots, in slot order, with the final cache. -/
def evaluatePopulation (population : List (List Nat)) (dm : DistanceMatrix)
    (cache : LRUCache) : Option (List ℚ × LRUCache) :=
  population.foldlM (evalStep dm) ([], cache)

/-- The `updateBest` closure of Go `main` (main.go:359-363):
`if r.distance < best.distance { best = r }`. -/
def updateBest (best r : Route) : Route :=
  if r.distance < best.distance then r else best

/-- The best-so-far record across generations (main.go:358-369): `init` is
the record entering generation `0` and `champs g` is the tour passed to
`updateBest` in generation `g` (the front of the sorted population). -/
def bestSeq (init : Route) (champs : Nat → Route) : Nat → Route
  | 0 => init
  | g + 1 => updateBest (bestSeq init champs g) (champs g)

/-- Go `func randomRoute(numCities int) Route` (main.go:191-200) before the
shuffle: `make([]int, numCities-1)` filled with `1 .. numCities-1`.  With
`numCities ≤ 0` the Go `make` is called with a negative length and panics,
modelled by `none`.  The shuffle permutes the list in place and is
irrelevant to the claims treated here. -/
def randomRoutePath (numCities : ℤ) : Option (List Nat) :=
  if numCities ≤ 0 then none
  else some (List.range' 1 (numCities - 1).toNat)

/-- The checks Go `main` performs before the generation loop
(main.go:340-350): it aborts only when no input file is given or the file
read returns an error; no other configuration value is validated. -/
def mainPreLoopCheck (inputFile : String) (readError : Bool) : Bool :=
  !(inputFile == "") && !readError

/-- The elitism step at the top of each generation (main.go:371-374):
`newPopulation = append(newPopulation, population[:*eliteSize]...)` guarded
by `*eliteSize > 0`.  Slicing `population[:eliteSize]` panics when
`eliteSize` exceeds the population length (the backing array has exactly
`popSize` capacity), modelled by `none`. -/
def eliteStep (population : List Route) (eliteSize : ℤ) : Option (List Route) :=
  if 0 < eliteSize then
    if eliteSize ≤ (population.length : ℤ) then some (population.take eliteSize.toNat)
    else none
  else some []

/-- A `Get` or `Put` call on the shared cache, for stating safety under
arbitrary operation sequences. -/
inductive CacheOp where
  | get (key : String)
  | put (key : String) (value : ℚ)
deriving DecidableEq, Repr

/-- Run one cache operation, keeping only the state (`none` = `Put` panic). -/
def runOp (c : LRUCache) : CacheOp → Option LRUCache
  | .get k => some (c.get k).2
  | .put k v => c.put k v

/-- Run a sequence of cache operations from a starting state. -/
def runOps (c : LRUCache) (ops : List CacheOp) : Option LRUCache :=
  ops.foldlM runOp c

/-- A concrete symmetric 4-city distance matrix, `matrix[i][j] = i * j`,
used to witness that the canonical key identifies tours of different
lengths. -/
def dmX : DistanceMatrix :=
  [[0, 0, 0, 0], [0, 1, 2, 3], [0, 2, 4, 6], [0, 3, 6, 9]]

/-!
## The canonical key is invariant under cyclic rotation

`scanMinIdx` is characterized against an ambient index-to-value function
`f`; instantiated with `f j = l.getD j 0` this yields that `minIndex`
returns an in-range index of a minimal element.
-/

theorem scanMinIdx_spec (f : Nat → Nat) (rest : List Nat) :
    ∀ (i bestIdx bestVal : Nat),
      f bestIdx = bestVal →
      (∀ j, j < rest.length → f (i + j) = rest.getD j 0) →
      (scanMinIdx rest i bestIdx bestVal = bestIdx ∨
        ∃ j, j < rest.length ∧ scanMinIdx rest i bestIdx bestVal = i + j) ∧
      f (scanMinIdx rest i bestIdx bestVal) ≤ bestVal ∧
      (∀ j, j < rest.length → f (scanMinIdx rest i bestIdx bestVal) ≤ rest.getD j 0) := by
  induction rest with
  | nil =>
    intro i b v hb _
    refine ⟨Or.inl rfl, ?_, ?_⟩ <;> simp [scanMinIdx, hb]
  | cons x rest ih =>
    intro i b v hb hrest
    have hx : f i = x := by simpa using hrest 0 (by simp)
    have hshift : ∀ j, j < rest.length → f (i + 1 + j) = rest.getD j 0 := by
      intro j hj
      have h := hrest (j + 1) (by simpa using Nat.succ_lt_succ hj)
      have harith : i + (j + 1) = i + 1 + j := by omega
      rw [harith] at h
      simpa using h
    by_cases hlt : x < v
    · have h := ih (i + 1) i x hx hshift
      simp only [scanMinIdx, if_pos hlt]
      refine ⟨?_, le_trans h.2.1 (le_of_lt hlt), ?_⟩
      · rcases h.1 with h1 | ⟨j, hj, heq⟩
        · exact Or.inr ⟨0, by simp, by simpa using h1⟩
        · exact Or.inr ⟨j + 1, by simpa using Nat.succ_lt_succ hj, by omega⟩
      · intro j hj
        match j with
        | 0 => simpa using h.2.1
        | j + 1 =>
          have hj2 : j < rest.length := by simpa using Nat.lt_of_succ_lt_succ hj
          simpa using h.2.2 j hj2
    · have h := ih (i + 1) b v hb hshift
      simp only [scanMinIdx, if_neg hlt]
      refine ⟨?_, h.2.1, ?_⟩
      · rcases h.1 with h1 | ⟨j, hj, heq⟩
        · exact Or.inl h1
        · exact Or.inr ⟨j + 1, by simpa using Nat.succ_lt_succ hj, by omega⟩
      · intro j hj
        match j with
        | 0 =>
          have hvx : v ≤ x := Nat.le_of_not_lt hlt
          simpa using le_trans h.2.1 hvx
        | j + 1 =>
          have hj2 : j < rest.length := by simpa using Nat.lt_of_succ_lt_succ hj
          simpa using h.2.2 j hj2

theorem minIndex_spec (x : Nat) (rest : List Nat) :
    (minIndex (x :: rest) = 0 ∨
      ∃ j, j < rest.length ∧ minIndex (x :: rest) = 1 + j) ∧
    (x :: rest).getD (minIndex (x :: rest)) 0 ≤ x ∧
    (∀ j, j < rest.length → (x :: rest).getD (minIndex (x :: rest)) 0 ≤ rest.getD j 0) := by
  have h := scanMinIdx_spec (fun j => (x :: rest).getD j 0) rest 1 0 x (by simp)
    (fun j _ => by simp [Nat.add_comm 1 j])
  exact h

theorem minIndex_lt (l : List Nat) (h : l ≠ []) : minIndex l < l.length := by
  match l with
  | x :: rest =>
    rcases (minIndex_spec x rest).1 with h0 | ⟨j, hj, heq⟩
    · simp [h0]
    · simp only [heq, List.length_cons]
      omega

theorem minIndex_getD_le (l : List Nat) : ∀ j, j < l.length → l.getD (minIndex l) 0 ≤ l.getD j 0 := by
  match l with
  | [] => intro j hj; simp at hj
  | x :: rest =>
    intro j hj
    match j with
    | 0 => simpa using (minIndex_spec x rest).2.1
    | j + 1 =>
      have hj2 : j < rest.length := by simpa using Nat.lt_of_succ_lt_succ hj
      simpa using (minIndex_spec x rest).2.2 j hj2

theorem minIndex_le_mem (l : List Nat) (hlt : minIndex l < l.length) :
    ∀ x ∈ l, l[minIndex l] ≤ x := by
  intro x hx
  obtain ⟨j, hj, rfl⟩ := List.mem_iff_getElem.mp hx
  have h := minIndex_getD_le l j hj
  simpa [List.getD_eq_getElem?_getD, List.getElem?_eq_getElem, hj, hlt] using h

theorem normalizePath_eq_rotate (l : List Nat) (h : l ≠ []) :
    normalizePath l = l.rotate (minIndex l) := by
  match l with
  | x :: rest =>
    rw [List.rotate_eq_drop_append_take (le_of_lt (minIndex_lt (x :: rest) h))]
    rfl

/-- The head of a (non-empty) normalized path is the value at the minimum
index of the original path. -/
theorem normalizePath_head (l : List Nat) (hne : l ≠ []) (hlt : minIndex l < l.length) :
    (normalizePath l).head? = some l[minIndex l] := by
  rw [normalizePath_eq_rotate l hne, List.head?_rotate hlt, List.getElem?_eq_getElem hlt]

/-- `normalizePath` maps every cyclic rotation of a duplicate-free path to
the same list: both normalizations are rotations of the same list whose
head is its unique minimal element, and a duplicate-free list has exactly
one rotation starting at a given element. -/
theorem normalizePath_rotation_invariant (l : List Nat) (k : Nat) (hnd : l.Nodup) :
    normalizePath (l.rotate k) = normalizePath l := by
  match l with
  | [] => rw [List.rotate_nil]
  | x :: rest =>
    have hne : (x :: rest) ≠ [] := by simp
    have hpos : 0 < (x :: rest).length := by simp
    have hRlen : ((x :: rest).rotate k).length = (x :: rest).length := List.length_rotate _ _
    have hRne : (x :: rest).rotate k ≠ [] := by
      intro hc
      rw [hc] at hRlen
      simp at hRlen
    have hmR : minIndex ((x :: rest).rotate k) < ((x :: rest).rotate k).length :=
      minIndex_lt _ hRne
    rw [normalizePath_eq_rotate _ hRne, normalizePath_eq_rotate _ hne, List.rotate_rotate]
    rw [← List.rotate_mod (x :: rest) (k + minIndex ((x :: rest).rotate k))]
    have hilt : (k + minIndex ((x :: rest).rotate k)) % (x :: rest).length < (x :: rest).length :=
      Nat.mod_lt _ hpos
    have hjlt : minIndex (x :: rest) < (x :: rest).length := minIndex_lt _ hne
    refine congrArg _ ?_
    have hhead : ((x :: rest).rotate k)[minIndex ((x :: rest).rotate k)] =
        (x :: rest)[(k + minIndex ((x :: rest).rotate k)) % (x :: rest).length] := by
      have h1 : (((x :: rest).rotate k).rotate (minIndex ((x :: rest).rotate k))).head? =
          some ((x :: rest).rotate k)[minIndex ((x :: rest).rotate k)] := by
        rw [List.head?_rotate hmR, List.getElem?_eq_getElem hmR]
      have h2 : (((x :: rest).rotate k).rotate (minIndex ((x :: rest).rotate k))).head? =
          some (x :: rest)[(k + minIndex ((x :: rest).rotate k)) % (x :: rest).length] := by
        rw [List.rotate_rotate, ← List.rotate_mod (x :: rest) (k + minIndex ((x :: rest).rotate k)),
          List.head?_rotate hilt, List.getElem?_eq_getElem hilt]
      rw [h1] at h2
      exact Option.some.inj h2
    have hmem1 : (x :: rest)[(k + minIndex ((x :: rest).rotate k)) % (x :: rest).length] ∈
        (x :: rest) := List.getElem_mem _
    have hmem2 : (x :: rest)[minIndex (x :: rest)] ∈ (x :: rest) := List.getElem_mem _
    have hle1 : (x :: rest)[(k + minIndex ((x :: rest).rotate k)) % (x :: rest).length] ≤
        (x :: rest)[minIndex (x :: rest)] := by
      rw [← hhead]
      exact minIndex_le_mem _ hmR _ (List.mem_rotate.mpr hmem2)
    have hle2 : (x :: rest)[minIndex (x :: rest)] ≤
        (x :: rest)[(k + minIndex ((x :: rest).rotate k)) % (x :: rest).length] :=
      minIndex_le_mem _ hjlt _ hmem1
    have hvals : (x :: rest)[(k + minIndex ((x :: rest).rotate k)) % (x :: rest).length] =
        (x :: rest)[minIndex (x :: rest)] := le_antisymm hle1 hle2
    exact (hnd.getElem_inj_iff.mp hvals)

/-!
## LRU cache lemmas
-/

theorem LRUCache.get_capacity (c : LRUCache) (k : String) : (c.get k).2.capacity = c.capacity := by
  unfold LRUCache.get
  cases c.entries.find? (fun e => e.1 == k) <;> rfl

theorem LRUCache.get_length (c : LRUCache) (k : String) :
    (c.get k).2.entries.length = c.entries.length := by
  unfold LRUCache.get
  cases hf : c.entries.find? (fun e => e.1 == k) with
  | none => rfl
  | some e =>
    have hmem : e ∈ c.entries := List.mem_of_find?_eq_some hf
    have hp : (e.1 == k) = true := List.find?_some (p := fun (e : String × ℚ) => e.1 == k) hf
    have hlen : (c.entries.eraseP (fun e => e.1 == k)).length = c.entries.length - 1 :=
      List.length_eraseP_of_mem hmem hp
    have hpos : 0 < c.entries.length := List.length_pos_of_mem hmem
    simp [hlen]
    omega

theorem LRUCache.put_step (c : LRUCache) (k : String) (v : ℚ) (hcap : 1 ≤ c.capacity)
    (hlen : (c.entries.length : ℤ) ≤ c.capacity) :
    ∃ c2, c.put k v = some c2 ∧ c2.capacity = c.capacity ∧
      (c2.entries.length : ℤ) ≤ c.capacity := by
  unfold LRUCache.put
  cases hf : c.entries.find? (fun e => e.1 == k) with
  | some e =>
    refine ⟨_, rfl, rfl, ?_⟩
    have hmem : e ∈ c.entries := List.mem_of_find?_eq_some hf
    have hp : (e.1 == k) = true := List.find?_some (p := fun (e : String × ℚ) => e.1 == k) hf
    have hel : (c.entries.eraseP (fun e => e.1 == k)).length = c.entries.length - 1 :=
      List.length_eraseP_of_mem hmem hp
    have hpos : 0 < c.entries.length := List.length_pos_of_mem hmem
    simp only [List.length_cons, hel]
    omega
  | none =>
    by_cases hfull : c.capacity ≤ (c.entries.length : ℤ)
    · have hne : c.entries ≠ [] := by
        intro hnil
        rw [hnil] at hfull
        simp at hfull
        omega
      rw [if_pos hfull]
      cases hl : c.entries.getLast? with
      | none => exact absurd (List.getLast?_eq_none_iff.mp hl) hne
      | some last =>
        refine ⟨_, rfl, rfl, ?_⟩
        have hpos : 0 < c.entries.length := List.length_pos_iff_ne_nil.mpr hne
        simp only [List.length_cons, List.length_dropLast]
        omega
    · rw [if_neg hfull]
      refine ⟨_, rfl, rfl, ?_⟩
      simp only [List.length_cons]
      push_cast
      omega

theorem runOps_inv (cap : ℤ) (hcap : 1 ≤ cap) :
    ∀ (ops : List CacheOp) (c : LRUCache), c.capacity = cap →
      (c.entries.length : ℤ) ≤ cap →
      ∃ c2, runOps c ops = some c2 ∧ c2.capacity = cap ∧ (c2.entries.length : ℤ) ≤ cap := by
  intro ops
  induction ops with
  | nil => intro c h1 h2; exact ⟨c, rfl, h1, h2⟩
  | cons op ops ih =>
    intro c h1 h2
    cases op with
    | get k =>
      have hc := LRUCache.get_capacity c k
      have hl := LRUCache.get_length c k
      obtain ⟨c2, hrun, hcap2, hlen2⟩ := ih (c.get k).2 (by rw [hc, h1]) (by rw [hl]; exact h2)
      exact ⟨c2, by simpa [runOps, List.foldlM, runOp] using hrun, hcap2, hlen2⟩
    | put k v =>
      obtain ⟨c1, hput, hcap1, hlen1⟩ := c.put_step k v (h1 ▸ hcap) (h1 ▸ h2)
      obtain ⟨c2, hrun, hcap2, hlen2⟩ := ih c1 (hcap1.trans h1) (h1 ▸ hlen1)
      refine ⟨c2, ?_, hcap2, hlen2⟩
      simpa [runOps, List.foldlM, runOp, hput] using hrun

/-- Put a list of key-value pairs into a cache in order (a sequence of
`Put` calls). -/
def putAll (c : LRUCache) (pairs : List (String × ℚ)) : Option LRUCache :=
  pairs.foldlM (fun c e => c.put e.1 e.2) c

/-- Whenever a `Put` succeeds, the written entry sits at the front of the
recency list, so an immediately following `Get` of the same key returns the
just-written value. -/
theorem LRUCache.get_after_put (c : LRUCache) (k : String) (v : ℚ) (c2 : LRUCache)
    (h : c.put k v = some c2) : (c2.get k).1 = (v, true) := by
  have hhead : ∃ tail, c2.entries = (k, v) :: tail := by
    unfold LRUCache.put at h
    cases hf : c.entries.find? (fun e => e.1 == k) with
    | some e =>
      rw [hf] at h
      cases h
      exact ⟨_, rfl⟩
    | none =>
      rw [hf] at h
      by_cases hfull : c.capacity ≤ (c.entries.length : ℤ)
      · rw [if_pos hfull] at h
        cases hl : c.entries.getLast? with
        | none => rw [hl] at h; cases h
        | some last =>
          rw [hl] at h
          cases h
          exact ⟨_, rfl⟩
      · rw [if_neg hfull] at h
        cases h
        exact ⟨_, rfl⟩
  obtain ⟨tail, htail⟩ := hhead
  unfold LRUCache.get
  rw [htail]
  simp

/-- Filling distinct, absent keys into a cache with enough room appends
them at the front of the recency list in reverse insertion order and evicts
nothing. -/
theorem putAll_fresh (pairs : List (String × ℚ)) :
    ∀ (c : LRUCache),
      (∀ e ∈ pairs, ∀ e2 ∈ c.entries, e2.1 ≠ e.1) →
      (pairs.map Prod.fst).Nodup →
      (c.entries.length : ℤ) + pairs.length ≤ c.capacity →
      putAll c pairs = some { capacity := c.capacity, entries := pairs.reverse ++ c.entries } := by
  induction pairs with
  | nil =>
    intro c _ _ _
    simp [putAll]
  | cons e pairs ih =>
    intro c habs hnd hlen
    have hf : c.entries.find? (fun x => x.1 == e.1) = none := by
      rw [List.find?_eq_none]
      intro x hx
      simpa using habs e (by simp) x hx
    have hroom : ¬ c.capacity ≤ (c.entries.length : ℤ) := by
      simp only [List.length_cons] at hlen
      push_cast at hlen
      omega
    have hstep : c.put e.1 e.2 = some { c with entries := (e.1, e.2) :: c.entries } := by
      unfold LRUCache.put
      rw [hf, if_neg hroom]
    have habs2 : ∀ f ∈ pairs, ∀ e2 ∈ ((e.1, e.2) :: c.entries), e2.1 ≠ f.1 := by
      intro f hf2 e2 he2
      rcases List.mem_cons.mp he2 with he2 | he2
      · subst he2
        simp only [List.map_cons, List.nodup_cons] at hnd
        intro hcontra
        exact hnd.1 (hcontra ▸ List.mem_map_of_mem Prod.fst hf2)
      · exact habs f (List.mem_cons_of_mem e hf2) e2 he2
    have hnd2 : (pairs.map Prod.fst).Nodup := by
      simp only [List.map_cons, List.nodup_cons] at hnd
      exact hnd.2
    have hlen2 : ((((e.1, e.2) :: c.entries).length : ℤ) + pairs.length ≤ c.capacity) := by
      simp only [List.length_cons] at hlen ⊢
      push_cast at hlen ⊢
      omega
    have hih := ih { c with entries := (e.1, e.2) :: c.entries } habs2 hnd2 hlen2
    have hfold : putAll c (e :: pairs) = putAll { c with entries := (e.1, e.2) :: c.entries } pairs := by
      simp [putAll, List.foldlM, hstep]
    rw [hfold, hih]
    simp

/-- Inserting `C+1` pairwise-distinct keys into an empty cache of capacity
`C ≥ 1` evicts exactly the first (least recently used) key: the final
recency list holds the last `C` insertions, most recent first. -/
theorem putAll_evicts_lru (C : Nat) (hC : 1 ≤ C) (pairs : List (String × ℚ))
    (hplen : pairs.length = C + 1) (hnd : (pairs.map Prod.fst).Nodup) :
    putAll (NewLRUCache (C : ℤ)) pairs =
      some { capacity := (C : ℤ), entries := (pairs.drop 1).reverse } := by
  have hne : pairs ≠ [] := by
    intro hnil
    rw [hnil] at hplen
    simp at hplen
  obtain ⟨ps, plast, hsplit⟩ : ∃ ps plast, pairs = ps ++ [plast] :=
    ⟨pairs.dropLast, pairs.getLast hne, (List.dropLast_concat_getLast hne).symm⟩
  subst hsplit
  have hpslen : ps.length = C := by
    simp only [List.length_append, List.length_cons, List.length_nil] at hplen
    omega
  have hpsne : ps ≠ [] := by
    intro hnil
    rw [hnil] at hpslen
    simp at hpslen
    omega
  obtain ⟨x, t, rfl⟩ : ∃ x t, ps = x :: t := by
    cases ps with
    | nil => exact absurd rfl hpsne
    | cons x t => exact ⟨x, t, rfl⟩
  rw [List.map_append, List.nodup_append] at hnd
  have hndps : ((x :: t).map Prod.fst).Nodup := hnd.1
  have hdisj : ∀ e2 ∈ (x :: t), e2.1 ≠ plast.1 := by
    intro e2 he2 hc
    exact hnd.2.2 (List.mem_map_of_mem Prod.fst he2) (by simp [hc])
  have h1 : putAll (NewLRUCache (C : ℤ)) (x :: t) =
      some { capacity := (C : ℤ), entries := (x :: t).reverse } := by
    have h := putAll_fresh (x :: t) (NewLRUCache (C : ℤ))
      (fun f _ e2 he2 => absurd he2 (List.not_mem_nil e2)) hndps
      (by simp [NewLRUCache, hpslen])
    simpa [NewLRUCache] using h
  have hfind : (((x :: t).reverse).find? (fun e => e.1 == plast.1)) = none := by
    rw [List.find?_eq_none]
    intro y hy
    simpa using hdisj y (List.mem_reverse.mp hy)
  have hcond : (C : ℤ) ≤ ((((x :: t).reverse).length : ℕ) : ℤ) := by
    rw [List.length_reverse, hpslen]
  have hlast : ((x :: t).reverse).getLast? = some x := by
    rw [List.getLast?_reverse]
    rfl
  have happend : putAll (NewLRUCache (C : ℤ)) ((x :: t) ++ [plast]) =
      (putAll (NewLRUCache (C : ℤ)) (x :: t)).bind
        (fun c1 => c1.put plast.1 plast.2) := by
    simp [putAll, List.foldlM_append, List.foldlM, Option.bind_assoc]
  rw [happend, h1, Option.some_bind]
  unfold LRUCache.put
  simp only [hfind, if_pos hcond, hlast]
  congr 1
  simp

/-!
## Characterization of the `cachedMutate` retry loop
-/

/-- The path state entering attempt `i` of `cachedMutate`: the caller's
array as scrambled by the earlier attempts (attempt `0` starts from the
input path). -/
def attemptState (mutateO : List Nat → ℚ → Nat → List Nat) (path : List Nat) (rate : ℚ) :
    Nat → List Nat
  | 0 => path
  | i + 1 => attemptResult mutateO path rate i

theorem attemptResult_eq (mutateO : List Nat → ℚ → Nat → List Nat) (path : List Nat)
    (rate : ℚ) (i : Nat) :
    attemptResult mutateO path rate i =
      mutateO (attemptState mutateO path rate i) (rate * (3 / 2) ^ i) i := by
  match i with
  | 0 => simp [attemptResult, attemptState]
  | i + 1 => rfl

theorem cachedMutateAux_all_collide (mutateO : List Nat → ℚ → Nat → List Nat)
    (inCache : String → Bool) (path : List Nat) (rate : ℚ) :
    ∀ fuel attempt, attempt + fuel = 8 →
      (∀ j, j < 8 → inCache (getKey (attemptResult mutateO path rate j)) = true) →
      cachedMutateAux mutateO inCache rate fuel (attemptState mutateO path rate attempt)
          (rate * (3 / 2) ^ attempt) attempt =
        mutateO (attemptResult mutateO path rate 7) rate 8 := by
  intro fuel
  induction fuel with
  | zero =>
    intro attempt ha _
    have h8 : attempt = 8 := by omega
    subst h8
    rfl
  | succ fuel ih =>
    intro attempt ha hall
    have hlt : attempt < 8 := by omega
    simp only [cachedMutateAux, ← attemptResult_eq, hall attempt hlt, if_true]
    have hrate : rate * (3 / 2) ^ attempt * (3 / 2) = rate * (3 / 2) ^ (attempt + 1) := by
      rw [pow_succ, mul_assoc]
    rw [hrate]
    exact ih (attempt + 1) (by omega) hall

theorem cachedMutateAux_first_fresh (mutateO : List Nat → ℚ → Nat → List Nat)
    (inCache : String → Bool) (path : List Nat) (rate : ℚ) (i0 : Nat) (hi0 : i0 < 8)
    (hbefore : ∀ j, j < i0 → inCache (getKey (attemptResult mutateO path rate j)) = true)
    (hfresh : inCache (getKey (attemptResult mutateO path rate i0)) = false) :
    ∀ fuel attempt, attempt + fuel = 8 → attempt ≤ i0 →
      cachedMutateAux mutateO inCache rate fuel (attemptState mutateO path rate attempt)
          (rate * (3 / 2) ^ attempt) attempt =
        attemptResult mutateO path rate i0 := by
  intro fuel
  induction fuel with
  | zero =>
    intro attempt ha hle
    omega
  | succ fuel ih =>
    intro attempt ha hle
    by_cases heq : attempt = i0
    · subst heq
      simp only [cachedMutateAux, ← attemptResult_eq, hfresh, Bool.false_eq_true, if_false]
    · have hlt2 : attempt < i0 := lt_of_le_of_ne hle heq
      simp only [cachedMutateAux, ← attemptResult_eq, hbefore attempt hlt2, if_true]
      have hrate : rate * (3 / 2) ^ attempt * (3 / 2) = rate * (3 / 2) ^ (attempt + 1) := by
        rw [pow_succ, mul_assoc]
      rw [hrate]
      exact ih (attempt + 1) (by omega) (by omega)

/-!
## The genetic operators preserve permutations

The swap half: a parallel-assignment swap of two in-range positions is a
permutation of the list, hence so is any sequence of swaps, hence `mutate`.
-/

theorem cons_set_perm : ∀ (xs : List Nat) (j : Nat) (x : Nat), j < xs.length →
    List.Perm (xs.getD j 0 :: xs.set j x) (x :: xs)
  | [], j, x, h => absurd h (by simp)
  | y :: ys, 0, x, _ => by
    simpa using List.Perm.swap x y ys
  | y :: ys, j + 1, x, h => by
    have hj : j < ys.length := by simpa using Nat.lt_of_succ_lt_succ h
    have h1 : List.Perm (ys.getD j 0 :: y :: ys.set j x) (y :: ys.getD j 0 :: ys.set j x) :=
      List.Perm.swap y (ys.getD j 0) (ys.set j x)
    have h2 : List.Perm (y :: ys.getD j 0 :: ys.set j x) (y :: x :: ys) :=
      List.Perm.cons y (cons_set_perm ys j x hj)
    have h3 : List.Perm (y :: x :: ys) (x :: y :: ys) := List.Perm.swap x y ys
    simpa using (h1.trans h2).trans h3

theorem swapPositions_perm : ∀ (l : List Nat) (a b : Nat), a < l.length → b < l.length →
    List.Perm (swapPositions l a b) l
  | [], a, _, ha, _ => absurd ha (by simp)
  | x :: xs, 0, 0, _, _ => by
    simp [swapPositions]
  | x :: xs, 0, j + 1, _, hb => by
    have hj : j < xs.length := by simpa using Nat.lt_of_succ_lt_succ hb
    have hred : swapPositions (x :: xs) 0 (j + 1) = xs.getD j 0 :: xs.set j x := by
      simp [swapPositions]
    rw [hred]
    exact cons_set_perm xs j x hj
  | x :: xs, i + 1, 0, ha, _ => by
    have hi : i < xs.length := by simpa using Nat.lt_of_succ_lt_succ ha
    have hred : swapPositions (x :: xs) (i + 1) 0 = xs.getD i 0 :: xs.set i x := by
      simp [swapPositions]
    rw [hred]
    exact cons_set_perm xs i x hi
  | x :: xs, i + 1, j + 1, ha, hb => by
    have hi : i < xs.length := by simpa using Nat.lt_of_succ_lt_succ ha
    have hj : j < xs.length := by simpa using Nat.lt_of_succ_lt_succ hb
    have hred : swapPositions (x :: xs) (i + 1) (j + 1) = x :: swapPositions xs i j := by
      simp [swapPositions]
    rw [hred]
    exact List.Perm.cons x (swapPositions_perm xs i j hi hj)

theorem swapPositions_length (l : List Nat) (a b : Nat) :
    (swapPositions l a b).length = l.length := by
  simp [swapPositions]

theorem foldl_swaps_perm : ∀ (swaps : List (Nat × Nat)) (path : List Nat),
    (∀ s ∈ swaps, s.1 < path.length ∧ s.2 < path.length) →
    List.Perm (swaps.foldl (fun p ab => swapPositions p ab.1 ab.2) path) path
  | [], path, _ => List.Perm.refl path
  | s :: swaps, path, h => by
    have hs := h s (by simp)
    have hstep : List.Perm (swapPositions path s.1 s.2) path :=
      swapPositions_perm path s.1 s.2 hs.1 hs.2
    have hlen : (swapPositions path s.1 s.2).length = path.length :=
      swapPositions_length path s.1 s.2
    have hrest : ∀ t ∈ swaps, t.1 < (swapPositions path s.1 s.2).length ∧
        t.2 < (swapPositions path s.1 s.2).length := by
      intro t ht
      rw [hlen]
      exact h t (List.mem_cons_of_mem s ht)
    exact (foldl_swaps_perm swaps (swapPositions path s.1 s.2) hrest).trans hstep

theorem mutate_perm (path : List Nat) (randFloat rate : ℚ) (swaps : List (Nat × Nat))
    (h : ∀ s ∈ swaps, s.1 < path.length ∧ s.2 < path.length) :
    List.Perm (mutate path randFloat rate swaps) path := by
  unfold mutate
  by_cases hr : randFloat ≥ rate
  · rw [if_pos hr]
  · rw [if_neg hr]
    exact foldl_swaps_perm swaps path h

/-!
## Characterization of the crossover fill

`copySeg` writes a contiguous segment, and the fill loop writes the
not-yet-used cities at consecutive positions mod `size`; both are reduced
to `take`/`drop` decompositions.
-/

theorem take_succ_set (c : List Nat) (pos : Nat) (x : Nat) (h : pos < c.length) :
    (c.set pos x).take (pos + 1) = c.take pos ++ [x] := by
  rw [List.set_eq_take_append_cons_drop, if_pos h, List.take_append_eq_append_take]
  have hlt : (c.take pos).length = pos := by
    rw [List.length_take]
    omega
  rw [List.take_of_length_le (by omega : (c.take pos).length ≤ pos + 1), hlt]
  simp

theorem setRange_eq (parent : List Nat) : ∀ (k a : Nat) (c : List Nat),
    a + k ≤ c.length → a + k ≤ parent.length →
    (List.range' a k).foldl (fun c i => c.set i (parent.getD i 0)) c =
      c.take a ++ (parent.drop a).take k ++ c.drop (a + k) := by
  intro k
  induction k with
  | zero =>
    intro a c _ _
    simp
  | succ k ih =>
    intro a c hc hp
    have ha : a < c.length := by omega
    have hap : a < parent.length := by omega
    have hstep : (List.range' a (k + 1)).foldl (fun c i => c.set i (parent.getD i 0)) c =
        (List.range' (a + 1) k).foldl (fun c i => c.set i (parent.getD i 0))
          (c.set a (parent.getD a 0)) := by
      rw [List.range'_succ]
      rfl
    rw [hstep, ih (a + 1) (c.set a (parent.getD a 0)) (by rw [List.length_set]; omega) (by omega)]
    rw [take_succ_set c a _ ha,
      List.drop_set_of_lt (parent.getD a 0) c (by omega : a < a + 1 + k)]
    have hdtake : (parent.drop a).take (k + 1) =
        parent.getD a 0 :: (parent.drop (a + 1)).take k := by
      rw [List.drop_eq_getElem_cons hap, List.take_succ_cons]
      congr 1
      simp [List.getD_eq_getElem?_getD, List.getElem?_eq_getElem, hap]
    rw [hdtake, (by omega : a + 1 + k = a + (k + 1))]
    simp [List.append_assoc]

theorem copySeg_replicate (parent : List Nat) (a b size : Nat) (hab : a ≤ b) (hb : b < size)
    (hp : size ≤ parent.length) :
    copySeg parent a b (List.replicate size 0) =
      List.replicate a 0 ++ (parent.drop a).take (b + 1 - a) ++
        List.replicate (size - (b + 1)) 0 := by
  unfold copySeg
  rw [setRange_eq parent (b + 1 - a) a (List.replicate size 0)
    (by rw [List.length_replicate]; omega) (by omega)]
  rw [List.take_replicate, List.drop_replicate, (by omega : min a size = a),
    (by omega : a + (b + 1 - a) = b + 1)]

/-- The unconditional write-and-advance step of the fill loop. -/
def writeStep (size : Nat) (acc : List Nat × Nat) (city : Nat) : List Nat × Nat :=
  (acc.1.set acc.2 city, (acc.2 + 1) % size)

theorem fillChild_eq_filter (size : Nat) (child parent used : List Nat) (b : Nat) :
    fillChild size child parent used b =
      ((parent.filter (fun city => !decide (city ∈ used))).foldl (writeStep size)
        (child, (b + 1) % size)).1 := by
  unfold fillChild
  suffices h : ∀ (p : List Nat) (init : List Nat × Nat),
      p.foldl (fun acc city => if city ∈ used then acc
        else (acc.1.set acc.2 city, (acc.2 + 1) % size)) init =
      (p.filter (fun city => !decide (city ∈ used))).foldl (writeStep size) init by
    rw [h parent (child, (b + 1) % size)]
  intro p
  induction p with
  | nil => intro init; rfl
  | cons x p ih =>
    intro init
    by_cases hx : x ∈ used
    · simp [List.foldl_cons, List.filter_cons, hx, ih]
    · simp [List.foldl_cons, List.filter_cons, hx, ih, writeStep]

theorem writeFold_no_wrap (size : Nat) : ∀ (xs : List Nat) (c : List Nat) (pos : Nat),
    c.length = size → pos < size → pos + xs.length ≤ size →
    xs.foldl (writeStep size) (c, pos) =
      (c.take pos ++ xs ++ c.drop (pos + xs.length),
        if pos + xs.length < size then pos + xs.length else 0) := by
  intro xs
  induction xs with
  | nil =>
    intro c pos hc hpos hlen
    simp [hpos]
  | cons x xs ih =>
    intro c pos hc hpos hlen
    simp only [List.length_cons] at hlen ⊢
    rw [List.foldl_cons]
    by_cases hend : pos + 1 = size
    · have hlen0 : xs.length = 0 := by omega
      have hxs : xs = [] := List.eq_nil_of_length_eq_zero hlen0
      subst hxs
      simp only [List.foldl_nil]
      unfold writeStep
      have hfst : c.set pos x = c.take pos ++ x :: c.drop (pos + 1) := by
        rw [List.set_eq_take_append_cons_drop, if_pos (by omega : pos < c.length)]
      have hsnd : (pos + 1) % size = 0 := by
        rw [hend, Nat.mod_self]
      rw [hfst, hsnd]
      simp [if_neg (by omega : ¬ (pos + (0 + 1) < size))]
    · have hlt : pos + 1 < size := by omega
      have hinit : writeStep size (c, pos) x = (c.set pos x, pos + 1) := by
        unfold writeStep
        simp [Nat.mod_eq_of_lt hlt]
      rw [hinit, ih (c.set pos x) (pos + 1) (by rw [List.length_set]; exact hc) hlt (by omega)]
      refine Prod.ext ?_ ?_
      · rw [take_succ_set c pos x (by omega : pos < c.length),
          List.drop_set_of_lt x c (by omega : pos < pos + 1 + xs.length),
          (by omega : pos + 1 + xs.length = pos + (xs.length + 1))]
        simp [List.append_assoc]
      · simp only [(by omega : pos + 1 + xs.length = pos + (xs.length + 1))]

/-- The fill loop writes exactly the cities of `pFill` that are not in the
copied segment into the positions outside `[a, b]` (wrapping at `size`), so
the finished child is a permutation of the segment together with the
remaining cities — that is, of `pFill`. -/
theorem fill_perm (size : Nat) (base pFill seg : List Nat) (a b : Nat)
    (hbase : base = List.replicate a 0 ++ seg ++ List.replicate (size - (b + 1)) 0)
    (hsegLen : seg.length = b + 1 - a)
    (hsegNd : seg.Nodup) (hnd2 : pFill.Nodup)
    (hsegSubset : ∀ y ∈ seg, y ∈ pFill)
    (hszF : pFill.length = size)
    (hab : a ≤ b) (hb : b < size) :
    List.Perm
      ((pFill.filter (fun c => !decide (c ∈ seg))).foldl (writeStep size)
        (base, (b + 1) % size)).1
      pFill := by
  subst hbase
  have hsizePos : 0 < size := by omega
  have hfiltPerm : List.Perm (pFill.filter (fun c => decide (c ∈ seg))) seg := by
    rw [List.perm_ext_iff_of_nodup (hnd2.filter _) hsegNd]
    intro y
    simp only [List.mem_filter, decide_eq_true_eq]
    exact ⟨fun h => h.2, fun h => ⟨hsegSubset y h, h⟩⟩
  have hsplit : List.Perm (pFill.filter (fun c => decide (c ∈ seg)) ++
      pFill.filter (fun c => !decide (c ∈ seg))) pFill :=
    List.filter_append_perm _ pFill
  have hxsLen : (pFill.filter (fun c => !decide (c ∈ seg))).length = size - (b + 1) + a := by
    have h1 : (pFill.filter (fun c => decide (c ∈ seg))).length +
        (pFill.filter (fun c => !decide (c ∈ seg))).length = size := by
      rw [← List.length_append, hsplit.length_eq, hszF]
    have h2 : (pFill.filter (fun c => decide (c ∈ seg))).length = b + 1 - a := by
      rw [hfiltPerm.length_eq, hsegLen]
    omega
  have hbaseLen : (List.replicate a (0:Nat) ++ seg ++
      List.replicate (size - (b + 1)) 0).length = size := by
    simp [hsegLen]
    omega
  by_cases hcase : b + 1 = size
  · have hmod : (b + 1) % size = 0 := by rw [hcase, Nat.mod_self]
    have hxsLen2 : (pFill.filter (fun c => !decide (c ∈ seg))).length = a := by omega
    rw [hmod, writeFold_no_wrap size _ _ 0 hbaseLen hsizePos (by omega)]
    dsimp only
    simp only [List.take_zero, List.nil_append, Nat.zero_add]
    have hrep0 : List.replicate (size - (b + 1)) (0:Nat) = [] := by
      rw [hcase]
      simp
    have hdrop : (List.replicate a (0:Nat) ++ seg ++ List.replicate (size - (b + 1)) 0).drop
        (pFill.filter (fun c => !decide (c ∈ seg))).length = seg := by
      rw [hrep0, List.append_nil, hxsLen2]
      exact List.drop_left' (by simp)
    rw [hdrop]
    exact List.perm_append_comm.trans
      ((hfiltPerm.symm.append_right (pFill.filter (fun c => !decide (c ∈ seg)))).trans hsplit)
  · have hlt : b + 1 < size := by omega
    have hmod : (b + 1) % size = b + 1 := Nat.mod_eq_of_lt hlt
    rw [hmod]
    have hsplit2 : pFill.filter (fun c => !decide (c ∈ seg)) =
        (pFill.filter (fun c => !decide (c ∈ seg))).take (size - (b + 1)) ++
        (pFill.filter (fun c => !decide (c ∈ seg))).drop (size - (b + 1)) :=
      (List.take_append_drop _ _).symm
    have hlenB : ((pFill.filter (fun c => !decide (c ∈ seg))).take (size - (b + 1))).length =
        size - (b + 1) := by
      rw [List.length_take]
      omega
    have hlenA : ((pFill.filter (fun c => !decide (c ∈ seg))).drop (size - (b + 1))).length =
        a := by
      rw [List.length_drop]
      omega
    rw [hsplit2, List.foldl_append,
      writeFold_no_wrap size _ _ (b + 1) hbaseLen hlt (by omega)]
    have hdropnil : (List.replicate a (0:Nat) ++ seg ++ List.replicate (size - (b + 1)) 0).drop
        (b + 1 + ((pFill.filter (fun c => !decide (c ∈ seg))).take (size - (b + 1))).length) =
          [] :=
      List.drop_eq_nil_of_le (by rw [hbaseLen, hlenB]; omega)
    have hifval : (if b + 1 + ((pFill.filter (fun c => !decide (c ∈ seg))).take
          (size - (b + 1))).length < size
        then b + 1 + ((pFill.filter (fun c => !decide (c ∈ seg))).take
          (size - (b + 1))).length else 0) = 0 :=
      if_neg (by rw [hlenB]; omega)
    rw [hdropnil, List.append_nil, hifval]
    have hulen : (List.replicate a (0:Nat) ++ seg).length = b + 1 := by
      simp [hsegLen]
      omega
    have htake : (List.replicate a (0:Nat) ++ seg ++
        List.replicate (size - (b + 1)) 0).take (b + 1) = List.replicate a 0 ++ seg := by
      rw [List.take_append_eq_append_take, List.take_of_length_le (le_of_eq hulen), hulen]
      simp
    have hc1len : ((List.replicate a (0:Nat) ++ seg ++
        List.replicate (size - (b + 1)) 0).take (b + 1) ++
        (pFill.filter (fun c => !decide (c ∈ seg))).take (size - (b + 1))).length = size := by
      rw [List.length_append, htake, hulen, hlenB]
      omega
    rw [writeFold_no_wrap size _ _ 0 hc1len hsizePos (by rw [hlenA]; omega)]
    dsimp only
    simp only [List.take_zero, List.nil_append, Nat.zero_add]
    have hdrop2 : (((List.replicate a (0:Nat) ++ seg ++
        List.replicate (size - (b + 1)) 0).take (b + 1) ++
        (pFill.filter (fun c => !decide (c ∈ seg))).take (size - (b + 1))).drop
          ((pFill.filter (fun c => !decide (c ∈ seg))).drop (size - (b + 1))).length) =
        seg ++ (pFill.filter (fun c => !decide (c ∈ seg))).take (size - (b + 1)) := by
      rw [List.drop_append_eq_append_drop, htake, hlenA,
        List.drop_left' (by simp : (List.replicate a (0:Nat)).length = a)]
      rw [List.length_append, List.length_replicate, hsegLen,
        (by omega : a - (a + (b + 1 - a)) = 0), List.drop_zero]
    rw [hdrop2]
    have hfinal : List.Perm
        ((pFill.filter (fun c => !decide (c ∈ seg))).drop (size - (b + 1)) ++
          (seg ++ (pFill.filter (fun c => !decide (c ∈ seg))).take (size - (b + 1))))
        (seg ++ ((pFill.filter (fun c => !decide (c ∈ seg))).take (size - (b + 1)) ++
          (pFill.filter (fun c => !decide (c ∈ seg))).drop (size - (b + 1)))) := by
      have h := @List.perm_append_comm _
        ((pFill.filter (fun c => !decide (c ∈ seg))).drop (size - (b + 1)))
        (seg ++ (pFill.filter (fun c => !decide (c ∈ seg))).take (size - (b + 1)))
      rw [List.append_assoc] at h
      exact h
    refine hfinal.trans ?_
    rw [← hsplit2]
    exact (hfiltPerm.symm.append_right _).trans hsplit

/-!
## Claim theorems
-/

/-- C1: the claim asserts that `calculateDistance` is invariant under cyclic
rotation of a valid tour (so that the rotation-invariant `getKey` only ever
identifies tours of equal length).  The code violates this: `[2,3,1]` is
the rotation of the valid tour `[1,2,3]` by one position and has the same
canonical key, yet on the distance matrix `dmX` the two closed cycles
`0→1→2→3→0` and `0→2→3→1→0` have lengths `8` and `9`.  The cache is keyed
on `getKey`, so it conflates tours of different lengths. -/
theorem calculateDistance_not_rotation_invariant :
    List.Perm ([1, 2, 3] : List Nat) (List.range' 1 3) ∧
    ([2, 3, 1] : List Nat) = List.rotate [1, 2, 3] 1 ∧
    getKey [2, 3, 1] = getKey [1, 2, 3] ∧
    calculateDistance [1, 2, 3] dmX = 8 ∧
    calculateDistance [2, 3, 1] dmX = 9 ∧
    calculateDistance [2, 3, 1] dmX ≠ calculateDistance [1, 2, 3] dmX := by
  refine ⟨by decide, by decide, by decide, ?_, ?_, ?_⟩ <;>
    norm_num [calculateDistance, dmX, DistanceMatrix.Distance]

theorem crossoverChild_perm (size : Nat) (pSeg pFill : List Nat) (a b : Nat)
    (hnd1 : pSeg.Nodup) (hnd2 : pFill.Nodup) (hperm : List.Perm pSeg pFill)
    (hab : a ≤ b) (hb : b < size) (hsz : pSeg.length = size) :
    List.Perm (crossoverChild size pSeg pFill a b) pFill := by
  have hszF : pFill.length = size := by
    rw [← hperm.length_eq]
    exact hsz
  have hsub : List.Sublist ((pSeg.drop a).take (b + 1 - a)) pSeg :=
    (List.take_sublist _ _).trans (List.drop_sublist _ _)
  unfold crossoverChild
  rw [fillChild_eq_filter, copySeg_replicate pSeg a b size hab hb (le_of_eq hsz.symm)]
  refine fill_perm size _ pFill ((pSeg.drop a).take (b + 1 - a)) a b rfl ?_ ?_ hnd2 ?_
    hszF hab hb
  · rw [List.length_take, List.length_drop, hsz]
    omega
  · exact List.Nodup.sublist hsub hnd1
  · intro y hy
    exact hperm.mem_iff.mp (hsub.subset hy)

/-- C2: for valid parent tours (permutations of `{1, ..., N-1}`, embedded as
`List.range' 1 m` with `m = N-1`) and admissible cut points `a ≤ b < size`,
both children of `crossover` are valid permutations, and `mutate` applied
to a valid permutation with in-range swap positions returns a valid
permutation for every mutation rate and random draw. -/
theorem crossover_mutate_preserve_permutation (m : Nat) (p1 p2 : List Nat) (a b : Nat)
    (hp1 : List.Perm p1 (List.range' 1 m)) (hp2 : List.Perm p2 (List.range' 1 m))
    (hab : a ≤ b) (hb : b < p1.length) :
    List.Perm (crossover p1 p2 a b).1 (List.range' 1 m) ∧
    List.Perm (crossover p1 p2 a b).2 (List.range' 1 m) ∧
    (∀ (path : List Nat) (randFloat rate : ℚ) (swaps : List (Nat × Nat)),
      List.Perm path (List.range' 1 m) →
      (∀ s ∈ swaps, s.1 < path.length ∧ s.2 < path.length) →
      List.Perm (mutate path randFloat rate swaps) (List.range' 1 m)) := by
  have hnd : (List.range' 1 m).Nodup := List.nodup_range' 1 m
  have hnd1 : p1.Nodup := hp1.nodup_iff.mpr hnd
  have hnd2 : p2.Nodup := hp2.nodup_iff.mpr hnd
  have hp12 : List.Perm p1 p2 := hp1.trans hp2.symm
  have hlen12 : p2.length = p1.length := hp12.length_eq.symm
  refine ⟨?_, ?_, ?_⟩
  · exact (crossoverChild_perm p1.length p1 p2 a b hnd1 hnd2 hp12 hab hb rfl).trans hp2
  · exact (crossoverChild_perm p1.length p2 p1 a b hnd2 hnd1 hp12.symm hab hb hlen12).trans hp1
  · intro path randFloat rate swaps hpath hsw
    exact (mutate_perm path randFloat rate swaps hsw).trans hpath

/-- Witness for `crossover_mutate_preserve_permutation` on concrete parents
of three cities with cut points `a = b = 1` and one concrete mutation. -/
theorem crossover_mutate_preserve_permutation_witness :
    List.Perm (crossover [1, 2, 3] [3, 1, 2] 1 1).1 (List.range' 1 3) ∧
    List.Perm (crossover [1, 2, 3] [3, 1, 2] 1 1).2 (List.range' 1 3) ∧
    List.Perm (mutate [1, 2, 3] 0 1 [(0, 2)]) (List.range' 1 3) :=
  ⟨(crossover_mutate_preserve_permutation 3 [1, 2, 3] [3, 1, 2] 1 1 (by decide) (by decide)
      (by decide) (by decide)).1,
    (crossover_mutate_preserve_permutation 3 [1, 2, 3] [3, 1, 2] 1 1 (by decide) (by decide)
      (by decide) (by decide)).2.1,
    (crossover_mutate_preserve_permutation 3 [1, 2, 3] [3, 1, 2] 1 1 (by decide) (by decide)
      (by decide) (by decide)).2.2 [1, 2, 3] 0 1 [(0, 2)] (by decide) (by decide)⟩

/-- C3: `getKey` is a total, deterministic function of the tour contents
only (it is a plain function of the path), and for every non-empty
duplicate-free tour sequence — the invariant of a valid tour — it is
invariant under cyclic rotation. -/
theorem getKey_rotation_invariant (l : List Nat) (k : Nat) (_hne : l ≠ []) (hnd : l.Nodup) :
    getKey (l.rotate k) = getKey l := by
  unfold getKey
  rw [normalizePath_rotation_invariant l k hnd]

/-- Witness for `getKey_rotation_invariant` on the tour `[1,2,3]` rotated
by one position. -/
theorem getKey_rotation_invariant_witness :
    ([1, 2, 3] : List Nat) ≠ [] ∧ ([1, 2, 3] : List Nat).Nodup ∧
    getKey (List.rotate [1, 2, 3] 1) = getKey [1, 2, 3] :=
  ⟨by decide, by decide, getKey_rotation_invariant [1, 2, 3] 1 (by decide) (by decide)⟩

/-- C4: LRU semantics.  (1) Whenever a `Put(k, v)` succeeds, an immediate
`Get(k)` returns `v` (the entry sits at the front of the recency list, so
no eviction can have removed it).  (2) Inserting `C+1` pairwise-distinct
keys into an empty cache of capacity `C ≥ 1` evicts exactly the first
(least-recently-accessed) key: the final recency list is the reversal of
the last `C` insertions.  (3) The concrete capacity-2 scenario: after
`Put("a",1)`, `Put("b",2)`, `Put("c",3)` the cache holds exactly `b` and
`c`; `Get("a")` misses (and leaves the cache unchanged), `Get("b")` returns
`2` (moving `b` to the front), and `Get("c")` on the resulting state
returns `3`. -/
theorem lru_semantics :
    (∀ (c : LRUCache) (k : String) (v : ℚ) (c2 : LRUCache),
      c.put k v = some c2 → (c2.get k).1 = (v, true)) ∧
    (∀ (C : Nat), 1 ≤ C → ∀ pairs : List (String × ℚ), pairs.length = C + 1 →
      (pairs.map Prod.fst).Nodup →
      putAll (NewLRUCache (C : ℤ)) pairs =
        some { capacity := (C : ℤ), entries := (pairs.drop 1).reverse }) ∧
    ((((NewLRUCache 2).put "a" 1).bind (fun c => c.put "b" 2)).bind (fun c => c.put "c" 3) =
      some ⟨2, [("c", 3), ("b", 2)]⟩ ∧
    ((⟨2, [("c", 3), ("b", 2)]⟩ : LRUCache).get "a").1 = (0, false) ∧
    ((⟨2, [("c", 3), ("b", 2)]⟩ : LRUCache).get "a").2 = ⟨2, [("c", 3), ("b", 2)]⟩ ∧
    ((⟨2, [("c", 3), ("b", 2)]⟩ : LRUCache).get "b").1 = (2, true) ∧
    ((⟨2, [("c", 3), ("b", 2)]⟩ : LRUCache).get "b").2 = ⟨2, [("b", 2), ("c", 3)]⟩ ∧
    ((⟨2, [("b", 2), ("c", 3)]⟩ : LRUCache).get "c").1 = (3, true)) :=
  ⟨LRUCache.get_after_put, putAll_evicts_lru,
    by decide, by decide, by decide, by decide, by decide, by decide⟩

/-- Witness for `lru_semantics`: the general statements applied to the
concrete capacity-2 scenario of the claim. -/
theorem lru_semantics_witness :
    putAll (NewLRUCache (2 : ℕ)) [("a", 1), ("b", 2), ("c", 3)] =
      some { capacity := ((2 : ℕ) : ℤ), entries := [("c", 3), ("b", 2)] } ∧
    ((⟨2, [("x", 7)]⟩ : LRUCache).get "x").1 = (7, true) :=
  ⟨lru_semantics.2.1 2 (by decide) [("a", 1), ("b", 2), ("c", 3)] (by decide) (by decide),
    lru_semantics.1 ⟨2, []⟩ "x" 7 ⟨2, [("x", 7)]⟩ (by decide)⟩

/-- C10: for every cache built by `NewLRUCache` with capacity `≥ 1`, no
operation sequence makes `Put` panic and the number of stored entries never
exceeds the capacity; with capacity `≤ 0`, the very first `Put` of an
absent key runs the eviction branch on the empty recency list and
dereferences the `nil` back pointer, so totality of `Put` requires
capacity `≥ 1`. -/
theorem lru_put_safety :
    (∀ cap : ℤ, 1 ≤ cap → ∀ ops : List CacheOp,
      (runOps (NewLRUCache cap) ops).isSome = true ∧
      ∀ c, runOps (NewLRUCache cap) ops = some c → (c.entries.length : ℤ) ≤ cap) ∧
    (∀ cap : ℤ, cap ≤ 0 → ∀ (k : String) (v : ℚ), (NewLRUCache cap).put k v = none) := by
  constructor
  · intro cap hcap ops
    obtain ⟨c2, hrun, _, hlen⟩ :=
      runOps_inv cap hcap ops (NewLRUCache cap) rfl (by simp [NewLRUCache]; omega)
    constructor
    · rw [hrun]
      rfl
    · intro c hc
      rw [hrun] at hc
      cases hc
      exact hlen
  · intro cap hcap k v
    unfold LRUCache.put
    simp [NewLRUCache, hcap]

/-- Witness for `lru_put_safety`: a capacity-1 cache survives a `Put`,
`Get`, `Put` sequence within its bound, and a capacity-0 cache panics on
the first `Put`. -/
theorem lru_put_safety_witness :
    (runOps (NewLRUCache 1) [.put "a" 1, .get "a", .put "b" 2]).isSome = true ∧
    (NewLRUCache 0).put "a" 1 = none :=
  ⟨(lru_put_safety.1 1 (by decide) [.put "a" 1, .get "a", .put "b" 2]).1,
    lru_put_safety.2 0 (by decide) "a" 1⟩

/-- C5: the claim asserts that `evaluatePopulation`, started from an empty
cache, assigns every tour the direct closed-cycle sum of its own sequence.
It fails on the population `[[1,2,3],[2,3,1]]` with the matrix `dmX`: the
two tours share a canonical key, the first populates the cache with `8`,
and the second is then assigned `8` from the cache hit although its own
closed-cycle sum is `9`. -/
theorem evaluatePopulation_cache_collision :
    (evaluatePopulation [[1, 2, 3], [2, 3, 1]] dmX (NewLRUCache 10000)).map (fun r => r.1) =
      some [8, 8] ∧
    calculateDistance [2, 3, 1] dmX = 9 ∧ (8 : ℚ) ≠ 9 := by
  refine ⟨?_, ?_, by decide⟩ <;>
    norm_num [evaluatePopulation, evalStep, NewLRUCache, LRUCache.get, LRUCache.put, getKey,
      normalizePath, minIndex, scanMinIdx, calculateDistance, dmX, DistanceMatrix.Distance,
      List.foldlM, List.find?]

/-- C6: across the whole run, the best-so-far record's length is
monotonically non-increasing from generation to generation, and the record
is replaced only when a tour of strictly smaller length is observed.
`init` is the record entering generation `0` and `champs g` the tour offered
to `updateBest` in generation `g`, so the statement covers every run. -/
theorem bestSeq_monotone (init : Route) (champs : Nat → Route) (g : Nat) :
    (bestSeq init champs (g + 1)).distance ≤ (bestSeq init champs g).distance ∧
    (bestSeq init champs (g + 1) ≠ bestSeq init champs g →
      (bestSeq init champs (g + 1)).distance < (bestSeq init champs g).distance) := by
  have h : bestSeq init champs (g + 1) = updateBest (bestSeq init champs g) (champs g) := rfl
  rw [h]
  unfold updateBest
  by_cases hlt : (champs g).distance < (bestSeq init champs g).distance
  · rw [if_pos hlt]
    exact ⟨le_of_lt hlt, fun _ => hlt⟩
  · rw [if_neg hlt]
    exact ⟨le_refl _, fun hne => absurd rfl hne⟩

/-- Witness for `bestSeq_monotone`: a concrete run where generation `0`
strictly improves the record. -/
theorem bestSeq_monotone_witness :
    (bestSeq ⟨[2, 1], 10⟩ (fun _ => ⟨[1, 2], 5⟩) 1 ≠ bestSeq ⟨[2, 1], 10⟩ (fun _ => ⟨[1, 2], 5⟩) 0) ∧
    (bestSeq ⟨[2, 1], 10⟩ (fun _ => ⟨[1, 2], 5⟩) 1).distance <
      (bestSeq ⟨[2, 1], 10⟩ (fun _ => ⟨[1, 2], 5⟩) 0).distance :=
  ⟨by decide, (bestSeq_monotone ⟨[2, 1], 10⟩ (fun _ => ⟨[1, 2], 5⟩) 0).2 (by decide)⟩

/-- C7: `cachedMutate` makes at most `8` `mutate` attempts, attempt `i`
running at the escalated rate `rate * (3/2)^i` (the `×1.5` applying only to
the attempts after a collision); it returns the first attempted tour whose
key is absent from the cache, and when all `8` attempts collide it returns
one additional `mutate` call at the original unescalated rate — being a
total Lean function it terminates and returns a tour in every case.
`mutateO` stands for `mutate` with its random draws at each call site, and
`inCache` for the `cache.Get` membership probe. -/
theorem cachedMutate_spec (mutateO : List Nat → ℚ → Nat → List Nat) (inCache : String → Bool)
    (path : List Nat) (rate : ℚ) :
    ((∀ j, j < 8 → inCache (getKey (attemptResult mutateO path rate j)) = true) →
      cachedMutate mutateO inCache path rate =
        mutateO (attemptResult mutateO path rate 7) rate 8) ∧
    (∀ i0, i0 < 8 →
      (∀ j, j < i0 → inCache (getKey (attemptResult mutateO path rate j)) = true) →
      inCache (getKey (attemptResult mutateO path rate i0)) = false →
      cachedMutate mutateO inCache path rate = attemptResult mutateO path rate i0) := by
  constructor
  · intro hall
    have h := cachedMutateAux_all_collide mutateO inCache path rate 8 0 rfl hall
    simpa [cachedMutate, attemptState] using h
  · intro i0 hi0 hb hf
    have h := cachedMutateAux_first_fresh mutateO inCache path rate i0 hi0 hb hf 8 0 rfl
      (by omega)
    simpa [cachedMutate, attemptState] using h

/-- Witness for `cachedMutate_spec`: with a cache that never reports a hit
the first attempt is returned, and with a cache that always reports a hit
the fallback call (index `8`, original rate) is returned. -/
theorem cachedMutate_spec_witness :
    cachedMutate (fun p _ i => p ++ [i]) (fun _ => false) [5] 1 = [5, 0] ∧
    cachedMutate (fun p _ i => p ++ [i]) (fun _ => true) [5] 1 =
      [5, 0, 1, 2, 3, 4, 5, 6, 7, 8] :=
  ⟨((cachedMutate_spec (fun p _ i => p ++ [i]) (fun _ => false) [5] 1).2 0 (by omega)
      (fun j hj => absurd hj (Nat.not_lt_zero j)) rfl).trans rfl,
    ((cachedMutate_spec (fun p _ i => p ++ [i]) (fun _ => true) [5] 1).1
      (fun j _ => rfl)).trans rfl⟩

/-- C8 counterexample: `mutate` does not leave the caller's sequence
unchanged.  With the tour `[1,2]`, a random draw `0 < rate = 1` and the
single swap `(0,1)`, the caller's backing array after the call is `[2,1]`,
and the returned path is that same array. -/
theorem mutate_modifies_caller_cex :
    (mutateGo [1, 2] 0 1 [(0, 1)]).1 = [2, 1] ∧
    (mutateGo [1, 2] 0 1 [(0, 1)]).2 = (mutateGo [1, 2] 0 1 [(0, 1)]).1 ∧
    (mutateGo [1, 2] 0 1 [(0, 1)]).1 ≠ [1, 2] := by
  refine ⟨by decide, rfl, by decide⟩

/-- C8 amended: `mutate` returns the caller's backing array itself (the
returned path and the caller's post-call array are one and the same), and
the sequence is unchanged only when the mutation does not fire
(`rand.Float64() ≥ rate`); when it fires, the caller's original sequence
has the swaps applied in place. -/
theorem mutate_returns_caller_array (path : List Nat) (randFloat rate : ℚ)
    (swaps : List (Nat × Nat)) :
    (mutateGo path randFloat rate swaps).2 = (mutateGo path randFloat rate swaps).1 ∧
    (rate ≤ randFloat → (mutateGo path randFloat rate swaps).1 = path) := by
  refine ⟨rfl, fun h => ?_⟩
  simp only [mutateGo, mutate, ge_iff_le, if_pos h]

/-- Witness for `mutate_returns_caller_array` at a concrete non-firing call. -/
theorem mutate_returns_caller_array_witness :
    (mutateGo [3, 1, 2] 1 0 [(0, 1)]).2 = (mutateGo [3, 1, 2] 1 0 [(0, 1)]).1 ∧
    (mutateGo [3, 1, 2] 1 0 [(0, 1)]).1 = [3, 1, 2] :=
  ⟨(mutate_returns_caller_array [3, 1, 2] 1 0 [(0, 1)]).1,
    (mutate_returns_caller_array [3, 1, 2] 1 0 [(0, 1)]).2 (by decide)⟩

/-- C9 counterexample: a configuration with a present input file, a
population of size `1` and elite size `2` passes every check `main`
performs before the generation loop, yet the elitism step of the very first
generation slices `population[:2]` out of bounds and panics — the
malformed configuration is neither detected nor reported before the loop,
and the failure happens mid-run. -/
theorem preloop_check_misses_elite_cex :
    mainPreLoopCheck "cities.txt" false = true ∧
    eliteStep [{ path := [1], distance := 0 }] 2 = none := by
  constructor
  · decide
  · norm_num [eliteStep]

/-- C9 amended: the only configuration errors detected and reported before
the generation loop are a missing input file and a failing file read.
Zero cities passes those checks and aborts via a runtime panic in
`randomRoute` (a negative `make` length) during population initialization
rather than a report; a population size smaller than a positive elite size
passes them as well and panics at the elitism slice inside the first
generation, mid-run. -/
theorem preloop_checks_characterization :
    (∀ (f : String) (err : Bool), mainPreLoopCheck f err = true ↔ (f ≠ "" ∧ err = false)) ∧
    (∀ (pop : List Route) (e : ℤ), eliteStep pop e = none ↔ (0 < e ∧ (pop.length : ℤ) < e)) ∧
    (∀ n : ℤ, randomRoutePath n = none ↔ n ≤ 0) := by
  refine ⟨fun f err => ?_, fun pop e => ?_, fun n => ?_⟩
  · simp [mainPreLoopCheck, String.ext_iff, and_comm]
  · unfold eliteStep
    split_ifs with h0 hle <;> simp <;> omega
  · unfold randomRoutePath
    by_cases h : n ≤ 0 <;> simp [h]

/-- Witness for `preloop_checks_characterization` at concrete inputs. -/
theorem preloop_checks_characterization_witness :
    (mainPreLoopCheck "a.tsp" false = true) ∧
    (eliteStep [] 3 = none) ∧
    (randomRoutePath 0 = none) :=
  ⟨(preloop_checks_characterization.1 "a.tsp" false).2 (by simp),
    (preloop_checks_characterization.2.1 [] 3).2 (by decide),
    (preloop_checks_characterization.2.2 0).2 (by decide)⟩

end GenAlgo
